import Mathlib

/-!
Verification of the image-deduplication engine in `src/main.rs`.

The program hashes every candidate image with a 64×64 perceptual hash,
rejects candidates whose hash is within Hamming distance 10 of a hash
already in the global store (`compare_hash`), converts admitted images to
AVIF, appends the admitted hash (base64-encoded) to the `hashes` log file,
and pushes it into the in-memory store.  `init_hashes` reloads the store
from the log at startup; `rebuild_hashes` recomputes the log from the
output directory.

We embed the byte-level hash type, the scan loop, the per-item processing
of `main`, the log reload, the rebuild pass, a trace model of the durable
effects, and an interleaving model of the scan/insert critical section.
-/

/-- Number of set bits in a natural number (models `u32::count_ones` as used
by `ImageHash::dist`, which sums the popcounts of xored hash bytes). -/
def bitCount (n : Nat) : Nat :=
  if h : n = 0 then 0 else n % 2 + bitCount (n / 2)
termination_by n
decreasing_by exact Nat.div_lt_self (Nat.pos_of_ne_zero h) (by omega)

/-- A perceptual hash: the raw bytes held by `image_hasher::ImageHash`
(`Box<[u8]>`).  Each entry is one byte, so valid hashes have entries below
256. -/
structure ImageHash where
  bytes : List Nat
deriving DecidableEq, Repr

/-- All entries of the hash are genuine bytes. -/
def ImageHash.validBytes (h : ImageHash) : Prop :=
  ∀ b ∈ h.bytes, b < 256

instance (h : ImageHash) : Decidable h.validBytes := by
  unfold ImageHash.validBytes; infer_instance

/-- Hamming distance between two hashes: `ImageHash::dist` xors the byte
slices pointwise and sums the popcounts. -/
def ImageHash.dist (a b : ImageHash) : Nat :=
  (List.zipWith (fun x y => bitCount (x ^^^ y)) a.bytes b.bytes).sum

/-- The duplicate threshold: `main.rs` line 158 uses the literal `10` in
`hash.dist(&origin_hash) < 10`. -/
def THRESHOLD : Nat := 10

/-- The scan loop of `compare_hash` (main.rs lines 157-163): walk the
stored hashes; if any stored hash is at distance `< 10` from the candidate
return `None` (rejected), otherwise return `Some origin` (admitted). -/
def compare_hash_scan : List ImageHash → ImageHash → Option ImageHash
  | [], origin => some origin
  | h :: rest, origin =>
    if h.dist origin < THRESHOLD then none else compare_hash_scan rest origin

theorem bitCount_zero : bitCount 0 = 0 := by
  unfold bitCount; simp

theorem ImageHash.dist_self (h : ImageHash) : h.dist h = 0 := by
  unfold ImageHash.dist
  induction h.bytes with
  | nil => simp
  | cons a l ih =>
    simp only [List.zipWith_cons_cons, List.sum_cons, Nat.xor_self,
      bitCount_zero, Nat.zero_add]
    exact ih

theorem ImageHash.dist_comm (a b : ImageHash) : a.dist b = b.dist a := by
  unfold ImageHash.dist
  congr 1
  exact List.zipWith_comm_of_comm _ (fun x y => by rw [Nat.xor_comm]) _ _

/-- C1: the admission decision of `compare_hash` is the binary rule: the
candidate is rejected (result `none`) exactly when some stored hash is at
distance strictly below `THRESHOLD` from it, and admitted with its own hash
(result `some origin`) exactly when every stored hash is at distance at
least `THRESHOLD`; nothing else about which or how many hashes matched can
influence the result, since the two cases are exhaustive. -/
theorem compare_hash_decision (store : List ImageHash) (origin : ImageHash) :
    (compare_hash_scan store origin = none ↔
      ∃ g ∈ store, g.dist origin < THRESHOLD) ∧
    (compare_hash_scan store origin = some origin ↔
      ∀ g ∈ store, THRESHOLD ≤ g.dist origin) := by
  induction store with
  | nil => simp [compare_hash_scan]
  | cons h rest ih =>
    by_cases hd : h.dist origin < THRESHOLD
    · constructor
      · simp [compare_hash_scan, hd]
      · simp only [compare_hash_scan, if_pos hd]
        constructor
        · intro hc; exact absurd hc (by simp)
        · intro hall
          exact absurd (hall h (by simp)) (by omega)
    · constructor
      · simp only [compare_hash_scan, if_neg hd, ih.1]
        constructor
        · rintro ⟨g, hg, hlt⟩; exact ⟨g, by simp [hg], hlt⟩
        · rintro ⟨g, hg, hlt⟩
          rcases List.mem_cons.mp hg with rfl | hg
          · omega
          · exact ⟨g, hg, hlt⟩
      · simp only [compare_hash_scan, if_neg hd, ih.2]
        constructor
        · intro hall g hg
          rcases List.mem_cons.mp hg with rfl | hg
          · omega
          · exact hall g hg
        · intro hall g hg; exact hall g (by simp [hg])

/-- One admit-then-insert operation: run the `compare_hash` scan against the
current store and, only when it admits, push the hash (main.rs line 108). -/
def admitStep (store : List ImageHash) (h : ImageHash) : List ImageHash :=
  match compare_hash_scan store h with
  | some h2 => store ++ [h2]
  | none => store

/-- A sequence of admit-then-insert operations, each scanning the store that
resulted from the previous operations. -/
def admitRun (store : List ImageHash) (cands : List ImageHash) : List ImageHash :=
  cands.foldl admitStep store

/-- Pairwise separation of the store: every earlier hash is at distance at
least `THRESHOLD` from every later one. -/
def Separated (store : List ImageHash) : Prop :=
  store.Pairwise (fun a b => THRESHOLD ≤ a.dist b)

instance (store : List ImageHash) : Decidable (Separated store) := by
  unfold Separated; infer_instance

theorem compare_hash_scan_some {store : List ImageHash} {h x : ImageHash}
    (hc : compare_hash_scan store h = some x) : x = h := by
  induction store with
  | nil => injection hc with hx; exact hx.symm
  | cons g rest ih =>
    by_cases hd : g.dist h < THRESHOLD
    · rw [compare_hash_scan, if_pos hd] at hc; cases hc
    · rw [compare_hash_scan, if_neg hd] at hc; exact ih hc

theorem admitStep_separated {store : List ImageHash} (hs : Separated store)
    (h : ImageHash) : Separated (admitStep store h) := by
  unfold admitStep
  cases hc : compare_hash_scan store h with
  | none => exact hs
  | some h2 =>
    cases compare_hash_scan_some hc
    have hall : ∀ g ∈ store, THRESHOLD ≤ g.dist h :=
      (compare_hash_decision store h).2.mp hc
    unfold Separated at hs ⊢
    rw [List.pairwise_append]
    exact ⟨hs, List.pairwise_singleton _ _, fun a ha b hb => by
      rw [List.mem_singleton] at hb; subst hb; exact hall a ha⟩

theorem admitRun_separated (cands : List ImageHash) :
    ∀ store, Separated store → Separated (admitRun store cands) := by
  induction cands with
  | nil => intro store hs; exact hs
  | cons c rest ih =>
    intro store hs
    unfold admitRun at ih ⊢
    rw [List.foldl_cons]
    exact ih (admitStep store c) (admitStep_separated hs c)

/-- C2: starting from a store in which every pair of distinct hashes is at
distance at least `THRESHOLD`, after any sequence of admit-then-insert
operations (each insert performed only on an `Admitted` scan result against
the current store) every pair of distinct hashes in the store is still at
distance at least `THRESHOLD`. -/
theorem admitRun_dedup_invariant (store : List ImageHash)
    (cands : List ImageHash) (hs : Separated store) :
    ∀ a ∈ admitRun store cands, ∀ b ∈ admitRun store cands,
      a ≠ b → THRESHOLD ≤ a.dist b := by
  have hsym : Symmetric (fun a b : ImageHash => THRESHOLD ≤ a.dist b) := by
    intro a b hab
    rw [ImageHash.dist_comm]; exact hab
  have hsep : Separated (admitRun store cands) := admitRun_separated cands store hs
  intro a ha b hb hne
  exact List.Pairwise.forall hsym hsep ha hb hne

/-- Witness for C2: concretely, from the empty store, admitting the hashes
`[0]`, `[255]`, `[0]` leaves a store whose distinct members are pairwise at
distance at least 10 (the second `[0]` is rejected; `[0]` and `[255]` have
no distinct pair obligations violated since no two distinct stored hashes
are closer than 10 — here the store is `[[0]]` after rejecting `[255]`). -/
theorem admitRun_dedup_invariant_witness :
    Separated [] ∧
    (∀ a ∈ admitRun [] [⟨[0]⟩, ⟨[255]⟩, ⟨[0]⟩],
      ∀ b ∈ admitRun [] [⟨[0]⟩, ⟨[255]⟩, ⟨[0]⟩],
        a ≠ b → THRESHOLD ≤ a.dist b) :=
  ⟨by decide, admitRun_dedup_invariant [] [⟨[0]⟩, ⟨[255]⟩, ⟨[0]⟩] (by decide)⟩

/-- Modelled from the spec: the textual hash encoding used in the log file.
The spec calls it a "base64-style textual hash encoding" that is
"reversible, lossless" (`ImageHash::to_base64` / `from_base64` live in the
external `image_hasher` crate, outside this repository).  This is the
standard base64 alphabet. -/
def b64Alphabet : List Char :=
  ['A', 'B', 'C', 'D', 'E', 'F', 'G', 'H', 'I', 'J', 'K', 'L', 'M',
   'N', 'O', 'P', 'Q', 'R', 'S', 'T', 'U', 'V', 'W', 'X', 'Y', 'Z',
   'a', 'b', 'c', 'd', 'e', 'f', 'g', 'h', 'i', 'j', 'k', 'l', 'm',
   'n', 'o', 'p', 'q', 'r', 's', 't', 'u', 'v', 'w', 'x', 'y', 'z',
   '0', '1', '2', '3', '4', '5', '6', '7', '8', '9', '+', '/']

/-- The character for a 6-bit value. -/
def sextetToChar (n : Nat) : Char := b64Alphabet.getD n '?'

/-- Position of a character in the base64 alphabet, scanning left to
right. -/
def charIndex : List Char → Char → Nat → Option Nat
  | [], _, _ => none
  | a :: rest, c, i => if a = c then some i else charIndex rest c (i + 1)

/-- The 6-bit value of a base64 character, `none` for characters outside
the alphabet (such as the padding character). -/
def charToSextet (c : Char) : Option Nat := charIndex b64Alphabet c 0

/-- Modelled from the spec: base64 encoding of a byte sequence (groups of
three bytes become four characters; a short final group is padded with
one or two padding characters). -/
def b64Encode : List Nat → List Char
  | [] => []
  | [a] => [sextetToChar (a / 4), sextetToChar (a % 4 * 16), '=', '=']
  | [a, b] =>
    [sextetToChar (a / 4), sextetToChar (a % 4 * 16 + b / 16),
     sextetToChar (b % 16 * 4), '=']
  | a :: b :: c :: rest =>
    sextetToChar (a / 4) :: sextetToChar (a % 4 * 16 + b / 16) ::
    sextetToChar (b % 16 * 4 + c / 64) :: sextetToChar (c % 64) ::
    b64Encode rest

/-- Modelled from the spec: base64 decoding, `none` on any malformed
input (bad length, character outside the alphabet, padding not at the
end). -/
def b64Decode : List Char → Option (List Nat)
  | [] => some []
  | c1 :: c2 :: c3 :: c4 :: rest =>
    match charToSextet c1, charToSextet c2, charToSextet c3, charToSextet c4 with
    | some s1, some s2, some s3, some s4 =>
      match b64Decode rest with
      | some bs =>
        some ((s1 * 4 + s2 / 16) :: (s2 % 16 * 16 + s3 / 4) ::
              (s3 % 4 * 64 + s4) :: bs)
      | none => none
    | some s1, some s2, some s3, none =>
      if c4 = '=' ∧ rest = [] then
        some [s1 * 4 + s2 / 16, s2 % 16 * 16 + s3 / 4]
      else none
    | some s1, some s2, none, none =>
      if c3 = '=' ∧ c4 = '=' ∧ rest = [] then some [s1 * 4 + s2 / 16]
      else none
    | _, _, _, _ => none
  | _ => none

theorem charToSextet_sextetToChar : ∀ s < 64,
    charToSextet (sextetToChar s) = some s := by decide

theorem charToSextet_pad : charToSextet (Char.ofNat 61) = none := by decide

theorem sextetToChar_ne_pad : ∀ s < 64, sextetToChar s ≠ Char.ofNat 61 := by
  decide

theorem charToSextet_padChar : charToSextet '=' = none := by decide

theorem b64_roundtrip : ∀ bs : List Nat, (∀ b ∈ bs, b < 256) →
    b64Decode (b64Encode bs) = some bs := by
  intro bs
  induction bs using b64Encode.induct with
  | case1 => intro _; rfl
  | case2 a =>
    intro hv
    have ha : a < 256 := hv a (by simp)
    have e1 := charToSextet_sextetToChar (a / 4) (by omega)
    have e2 := charToSextet_sextetToChar (a % 4 * 16) (by omega)
    rw [b64Encode]
    simp only [b64Decode, e1, e2, charToSextet_padChar]
    simp only [and_self, if_true, reduceIte]
    congr 1
    have : (a % 4 * 16) / 16 = a % 4 := by omega
    rw [this]
    congr 1
    omega
  | case3 a b =>
    intro hv
    have ha : a < 256 := hv a (by simp)
    have hb : b < 256 := hv b (by simp)
    have e1 := charToSextet_sextetToChar (a / 4) (by omega)
    have e2 := charToSextet_sextetToChar (a % 4 * 16 + b / 16) (by omega)
    have e3 := charToSextet_sextetToChar (b % 16 * 4) (by omega)
    rw [b64Encode]
    simp only [b64Decode, e1, e2, e3, charToSextet_padChar]
    simp only [and_self, if_true, reduceIte]
    congr 1
    have g1 : (a / 4) * 4 + (a % 4 * 16 + b / 16) / 16 = a := by omega
    have g2 : (a % 4 * 16 + b / 16) % 16 * 16 + (b % 16 * 4) / 4 = b := by omega
    rw [g1, g2]
  | case4 a b c rest ih =>
    intro hv
    have ha : a < 256 := hv a (by simp)
    have hb : b < 256 := hv b (by simp)
    have hc : c < 256 := hv c (by simp)
    have e1 := charToSextet_sextetToChar (a / 4) (by omega)
    have e2 := charToSextet_sextetToChar (a % 4 * 16 + b / 16) (by omega)
    have e3 := charToSextet_sextetToChar (b % 16 * 4 + c / 64) (by omega)
    have e4 := charToSextet_sextetToChar (c % 64) (by omega)
    have hrest : b64Decode (b64Encode rest) = some rest :=
      ih (fun x hx => hv x (by simp [hx]))
    rw [b64Encode]
    simp only [b64Decode, e1, e2, e3, e4, hrest]
    congr 1
    have g1 : (a / 4) * 4 + (a % 4 * 16 + b / 16) / 16 = a := by omega
    have g2 : (a % 4 * 16 + b / 16) % 16 * 16 + (b % 16 * 4 + c / 64) / 4 = b := by
      omega
    have g3 : (b % 16 * 4 + c / 64) % 4 * 64 + c % 64 = c := by omega
    rw [g1, g2, g3]

/-- The textual encoding written to the log: `hash.to_base64()`
(main.rs line 107). -/
def ImageHash.to_base64 (h : ImageHash) : List Char := b64Encode h.bytes

/-- Parsing one log line: `ImageHash::from_base64(line)` (main.rs
line 173), `none` on a malformed line. -/
def ImageHash.from_base64 (s : List Char) : Option ImageHash :=
  (b64Decode s).map ImageHash.mk

/-- The startup load `init_hashes` (main.rs lines 167-179): read the log
file as lines, drop empty lines, and push every line that parses with
`ImageHash::from_base64`; lines that fail to parse are skipped
individually. -/
def init_hashes (lines : List (List Char)) : List ImageHash :=
  (lines.filter (fun l => !l.isEmpty)).filterMap ImageHash.from_base64

/-- A log line that `init_hashes` accepts: non-empty and parseable. -/
def wellFormedLine (l : List Char) : Bool :=
  !l.isEmpty && (ImageHash.from_base64 l).isSome

theorem b64Encode_ne_nil : ∀ l : List Nat, l ≠ [] → b64Encode l ≠ [] := by
  intro l hne
  match l with
  | [a] => rw [b64Encode]; simp
  | [a, b] => rw [b64Encode]; simp
  | a :: b :: c :: rest => rw [b64Encode]; simp

theorem from_base64_to_base64 (h : ImageHash) (hv : h.validBytes) :
    ImageHash.from_base64 h.to_base64 = some h := by
  unfold ImageHash.from_base64 ImageHash.to_base64
  rw [b64_roundtrip h.bytes hv]
  rfl

theorem init_hashes_log_of_store (store : List ImageHash)
    (hv : ∀ h ∈ store, h.validBytes) (hne : ∀ h ∈ store, h.bytes ≠ []) :
    init_hashes (store.map ImageHash.to_base64) = store := by
  induction store with
  | nil => rfl
  | cons h rest ih =>
    have hv1 : h.validBytes := hv h (by simp)
    have hne1 : h.bytes ≠ [] := hne h (by simp)
    have henc : (ImageHash.to_base64 h).isEmpty = false := by
      cases hmm : ImageHash.to_base64 h with
      | nil => exact absurd hmm (b64Encode_ne_nil h.bytes hne1)
      | cons x xs => rfl
    unfold init_hashes at ih ⊢
    rw [List.map_cons, List.filter_cons]
    simp only [henc, Bool.not_false, if_true, reduceIte]
    rw [List.filterMap_cons]
    rw [from_base64_to_base64 h hv1]
    rw [ih (fun g hg => hv g (by simp [hg])) (fun g hg => hne g (by simp [hg]))]

/-- C5: persistence round-trip.  For every valid, non-empty hash,
decoding the textual encoding written to the log yields the hash back;
consequently a fresh store loaded by `init_hashes` from the lines a run
wrote equals the store that wrote them, and it makes the same
admit/reject decision on every candidate hash. -/
theorem persistence_round_trip (store : List ImageHash)
    (hv : ∀ h ∈ store, h.validBytes) (hne : ∀ h ∈ store, h.bytes ≠ []) :
    (∀ h ∈ store, ImageHash.from_base64 h.to_base64 = some h) ∧
    init_hashes (store.map ImageHash.to_base64) = store ∧
    ∀ cand, compare_hash_scan (init_hashes (store.map ImageHash.to_base64)) cand =
      compare_hash_scan store cand := by
  refine ⟨fun h hh => from_base64_to_base64 h (hv h hh), ?_, ?_⟩
  · exact init_hashes_log_of_store store hv hne
  · intro cand
    rw [init_hashes_log_of_store store hv hne]

/-- Witness for C5: the round trip evaluated on a concrete two-hash
store. -/
theorem persistence_round_trip_witness :
    (∀ h ∈ [ImageHash.mk [0, 255], ImageHash.mk [17]],
      ImageHash.from_base64 h.to_base64 = some h) ∧
    init_hashes (([ImageHash.mk [0, 255], ImageHash.mk [17]]).map
      ImageHash.to_base64) = [ImageHash.mk [0, 255], ImageHash.mk [17]] ∧
    ∀ cand, compare_hash_scan (init_hashes
      (([ImageHash.mk [0, 255], ImageHash.mk [17]]).map ImageHash.to_base64))
        cand = compare_hash_scan [ImageHash.mk [0, 255], ImageHash.mk [17]] cand :=
  persistence_round_trip [ImageHash.mk [0, 255], ImageHash.mk [17]]
    (by decide) (by decide)

theorem length_filterMap_isSome {α β : Type} (f : α → Option β) :
    ∀ l : List α, (l.filterMap f).length =
      (l.filter (fun x => (f x).isSome)).length := by
  intro l
  induction l with
  | nil => rfl
  | cons a rest ih =>
    rw [List.filterMap_cons, List.filter_cons]
    cases hfa : f a with
    | none => simp [hfa, ih]
    | some b => simp [hfa, ih]

/-- C7: `init_hashes` skips each malformed log line individually and loads
every well-formed line: a hash is loaded exactly when some non-empty line
parses to it, the number of loaded hashes equals the number of well-formed
lines, and concretely a log with one malformed line and one valid line
loads exactly one hash. -/
theorem init_hashes_skips_malformed (lines : List (List Char)) :
    (∀ h, h ∈ init_hashes lines ↔
      ∃ l ∈ lines, l ≠ [] ∧ ImageHash.from_base64 l = some h) ∧
    (init_hashes lines).length = (lines.filter wellFormedLine).length ∧
    init_hashes [['!', '!', '!', '!'], ['A', 'Q', '=', '=']] =
      [ImageHash.mk [1]] := by
  refine ⟨?_, ?_, by decide⟩
  · intro h
    unfold init_hashes
    rw [List.mem_filterMap]
    constructor
    · rintro ⟨l, hl, hparse⟩
      rw [List.mem_filter] at hl
      refine ⟨l, hl.1, ?_, hparse⟩
      intro hnil
      rw [hnil] at hl
      exact absurd hl.2 (by decide)
    · rintro ⟨l, hl, hnil, hparse⟩
      refine ⟨l, ?_, hparse⟩
      rw [List.mem_filter]
      refine ⟨hl, ?_⟩
      cases l with
      | nil => exact absurd rfl hnil
      | cons x xs => rfl
  · unfold init_hashes
    rw [length_filterMap_isSome]
    rw [List.filter_filter]
    congr 1
    apply List.filter_congr
    intro x _
    unfold wellFormedLine
    rw [Bool.and_comm]

/-- One candidate image, described by what the external collaborators do
with it when `main`'s worker closure (main.rs lines 86-119) processes it:
the decode outcome inside `compare_hash` (line 148-150, `none` = an
`ImageError`), whether `File::open` at line 94 succeeds, whether
`img2avif` at line 95 succeeds, whether `fs::write` of the output file at
line 104 succeeds, whether the `writeln!` log append at line 107
succeeds, and the fresh uuid-derived output file name of line 103. -/
structure Item where
  decode : Option ImageHash
  openOk : Bool
  encodeOk : Bool
  writeOk : Bool
  logOk : Bool
  outName : List Char
deriving DecidableEq, Repr

/-- The durable state of one run: the in-memory `HASHES` store, the lines
appended to the `hashes` log file, and the output files written. -/
structure RunState where
  store : List ImageHash
  log : List (List Char)
  outputs : List (List Char)
deriving DecidableEq, Repr

/-- The worker closure body (main.rs lines 86-119).  `Except.error s`
means the worker panicked (a failed `unwrap`) with durable state `s` at
the moment of the panic; `Except.ok s` means the item finished (admitted,
rejected, decode-failed, or encode-failed) with durable state `s`. -/
def processItem (s : RunState) (it : Item) : Except RunState RunState :=
  match it.decode with
  | none => Except.ok s
  | some h =>
    match compare_hash_scan s.store h with
    | none => Except.ok s
    | some h2 =>
      if it.openOk = false then Except.error s
      else if it.encodeOk = false then Except.ok s
      else if it.writeOk = false then Except.error s
      else if it.logOk = false then
        Except.error { s with outputs := s.outputs ++ [it.outName] }
      else Except.ok { store := s.store ++ [h2],
                       log := s.log ++ [h2.to_base64],
                       outputs := s.outputs ++ [it.outName] }

/-- A whole run over the candidate list: process items in turn; a panic
in one worker propagates out of `par_iter().for_each` and aborts the
run. -/
def processRun (s : RunState) : List Item → Except RunState RunState
  | [] => Except.ok s
  | it :: rest =>
    match processItem s it with
    | Except.ok s2 => processRun s2 rest
    | Except.error s2 => Except.error s2

/-- C4: an admitted candidate whose re-encoding (`img2avif`) fails
completes with no durable effect: the state (store, log, outputs) is
returned unchanged, no panic occurs, and the run continues with the
remaining items. -/
theorem encode_failure_no_durable_effect (s : RunState) (it : Item)
    (rest : List Item) (h : ImageHash) (hdec : it.decode = some h)
    (hadm : compare_hash_scan s.store h = some h)
    (hopen : it.openOk = true) (henc : it.encodeOk = false) :
    processItem s it = Except.ok s ∧
    processRun s (it :: rest) = processRun s rest := by
  have hpi : processItem s it = Except.ok s := by
    unfold processItem
    rw [hdec]
    simp only [hadm, hopen, henc]
    simp
  refine ⟨hpi, ?_⟩
  simp only [processRun, hpi]

/-- Witness for C4: a concrete admitted item whose encode fails leaves
the empty initial state untouched and the run proceeds to the rest. -/
theorem encode_failure_no_durable_effect_witness :
    Item.decode ⟨some ⟨[0]⟩, true, false, true, true, ['n']⟩ = some ⟨[0]⟩ ∧
    compare_hash_scan (RunState.mk [] [] []).store ⟨[0]⟩ = some ⟨[0]⟩ ∧
    (processItem ⟨[], [], []⟩ ⟨some ⟨[0]⟩, true, false, true, true, ['n']⟩ =
        Except.ok ⟨[], [], []⟩ ∧
      processRun ⟨[], [], []⟩ [⟨some ⟨[0]⟩, true, false, true, true, ['n']⟩] =
        processRun ⟨[], [], []⟩ []) :=
  ⟨by decide, by decide,
    encode_failure_no_durable_effect ⟨[], [], []⟩
      ⟨some ⟨[0]⟩, true, false, true, true, ['n']⟩ [] ⟨[0]⟩
      (by decide) (by decide) (by decide) (by decide)⟩

/-- Counterexample to C8 as stated: with an empty initial state, a first
candidate whose output-file write fails (`fs::write(..).unwrap()` at
main.rs line 104 panics) followed by a perfectly good second candidate,
the run aborts at the first item — it does NOT continue with the
remaining candidate, whose processing alone would have admitted it. -/
theorem io_error_aborts_run_counterexample :
    processRun ⟨[], [], []⟩
      [⟨some ⟨[0]⟩, true, true, false, true, ['a']⟩,
       ⟨some ⟨[255]⟩, true, true, true, true, ['b']⟩] =
      Except.error ⟨[], [], []⟩ ∧
    processRun ⟨[], [], []⟩ [⟨some ⟨[255]⟩, true, true, true, true, ['b']⟩] =
      Except.ok ⟨[⟨[255]⟩], [['/', 'w', '=', '=']], [['b']]⟩ := by
  constructor
  · rfl
  · rfl

/-- C8 amended: an I/O error while writing an admitted item's output file
or appending its log line makes the worker panic on `unwrap` and the whole
run aborts with the remaining candidates unprocessed (only decode and
encode errors are contained per item); a failed output write leaves the
state untouched, while a failed log append happens after the output file
was already written. -/
theorem io_error_panics_run (s : RunState) (it : Item) (rest : List Item)
    (h : ImageHash) (hdec : it.decode = some h)
    (hadm : compare_hash_scan s.store h = some h)
    (hopen : it.openOk = true) (henc : it.encodeOk = true) :
    (it.writeOk = false → processRun s (it :: rest) = Except.error s) ∧
    (it.writeOk = true → it.logOk = false →
      processRun s (it :: rest) =
        Except.error { s with outputs := s.outputs ++ [it.outName] }) := by
  constructor
  · intro hw
    have hpi : processItem s it = Except.error s := by
      unfold processItem
      rw [hdec]
      simp only [hadm, hopen, henc, hw]
      simp
    simp only [processRun, hpi]
  · intro hw hl
    have hpi : processItem s it =
        Except.error { s with outputs := s.outputs ++ [it.outName] } := by
      unfold processItem
      rw [hdec]
      simp only [hadm, hopen, henc, hw, hl]
      simp
    simp only [processRun, hpi]

/-- Witness for the amended C8: the concrete failing-write run from the
counterexample aborts exactly as the amended claim states. -/
theorem io_error_panics_run_witness :
    Item.decode ⟨some ⟨[0]⟩, true, true, false, true, ['a']⟩ = some ⟨[0]⟩ ∧
    (Item.writeOk ⟨some ⟨[0]⟩, true, true, false, true, ['a']⟩ = false →
      processRun ⟨[], [], []⟩
        [⟨some ⟨[0]⟩, true, true, false, true, ['a']⟩,
         ⟨some ⟨[255]⟩, true, true, true, true, ['b']⟩] =
        Except.error ⟨[], [], []⟩) :=
  ⟨by decide,
   (io_error_panics_run ⟨[], [], []⟩ ⟨some ⟨[0]⟩, true, true, false, true, ['a']⟩
      [⟨some ⟨[255]⟩, true, true, true, true, ['b']⟩] ⟨[0]⟩
      (by decide) (by decide) (by decide) (by decide)).1⟩

/-- A durable action performed by the worker closure, in program order:
writing the output file (line 104), appending a hash line to the log
(line 107), inserting the hash into the in-memory store (line 108). -/
inductive DurAction where
  | writeOutput (name : List Char)
  | appendLog (h : ImageHash)
  | insertStore (h : ImageHash)
deriving DecidableEq, Repr

/-- The sequence of durable actions the worker closure performs for one
item, in the source order of main.rs lines 104, 107, 108 (cut short at
the point of a panic or early return). -/
def itemTrace (s : RunState) (it : Item) : List DurAction :=
  match it.decode with
  | none => []
  | some h =>
    match compare_hash_scan s.store h with
    | none => []
    | some h2 =>
      if it.openOk = false then []
      else if it.encodeOk = false then []
      else if it.writeOk = false then []
      else if it.logOk = false then [DurAction.writeOutput it.outName]
      else [DurAction.writeOutput it.outName, DurAction.appendLog h2,
            DurAction.insertStore h2]

/-- The durable-action trace of a whole run (items in sequence, stopping
where a panic aborts the run). -/
def runTrace (s : RunState) : List Item → List DurAction
  | [] => []
  | it :: rest =>
    match processItem s it with
    | Except.ok s2 => itemTrace s it ++ runTrace s2 rest
    | Except.error _ => itemTrace s it

/-- `p` is an initial segment of the trace `t`. -/
def IsPre (p t : List DurAction) : Prop := ∃ q, p ++ q = t

/-- In every initial segment of `t`, a store insert of a hash is preceded
by a log append of the same hash. -/
def LogBeforeIns (t : List DurAction) : Prop :=
  ∀ p, IsPre p t → ∀ h, DurAction.insertStore h ∈ p → DurAction.appendLog h ∈ p

theorem isPre_nil {p : List DurAction} (hp : IsPre p []) : p = [] := by
  rcases hp with ⟨q, hq⟩
  exact (List.append_eq_nil.mp hq).1

theorem isPre_append {p t1 t2 : List DurAction} (hp : IsPre p (t1 ++ t2)) :
    IsPre p t1 ∨ ∃ q, p = t1 ++ q ∧ IsPre q t2 := by
  rcases hp with ⟨r, hr⟩
  rcases List.append_eq_append_iff.mp hr with ⟨a2, ha1, _⟩ | ⟨c2, hc1, hc2⟩
  · exact Or.inl ⟨a2, ha1.symm⟩
  · exact Or.inr ⟨c2, hc1, ⟨r, hc2.symm⟩⟩

theorem logBeforeIns_append {t1 t2 : List DurAction} (h1 : LogBeforeIns t1)
    (h2 : LogBeforeIns t2) : LogBeforeIns (t1 ++ t2) := by
  intro p hp h hins
  rcases isPre_append hp with hpre | ⟨q, rfl, hq⟩
  · exact h1 p hpre h hins
  · rcases List.mem_append.mp hins with hin1 | hin2
    · exact List.mem_append.mpr (Or.inl (h1 t1 ⟨[], List.append_nil t1⟩ h hin1))
    · exact List.mem_append.mpr (Or.inr (h2 q hq h hin2))

theorem isPre_cons {x : DurAction} {t p : List DurAction} (hp : IsPre p (x :: t)) :
    p = [] ∨ ∃ p2, p = x :: p2 ∧ IsPre p2 t := by
  rcases hp with ⟨q, hq⟩
  cases p with
  | nil => exact Or.inl rfl
  | cons y p2 =>
    rw [List.cons_append] at hq
    injection hq with hy ht
    exact Or.inr ⟨p2, by rw [hy], ⟨q, ht⟩⟩

theorem logBeforeIns_nil : LogBeforeIns [] := by
  intro p hp h hins
  rw [isPre_nil hp] at hins
  cases hins

theorem logBeforeIns_single_write (n : List Char) :
    LogBeforeIns [DurAction.writeOutput n] := by
  intro p hp h hins
  rcases isPre_cons hp with rfl | ⟨p2, rfl, hp2⟩
  · cases hins
  · rw [isPre_nil hp2] at hins ⊢
    rcases List.mem_cons.mp hins with heq | hmem
    · cases heq
    · cases hmem

theorem logBeforeIns_item (n : List Char) (g : ImageHash) :
    LogBeforeIns [DurAction.writeOutput n, DurAction.appendLog g,
      DurAction.insertStore g] := by
  intro p hp h hins
  rcases isPre_cons hp with rfl | ⟨p2, rfl, hp2⟩
  · cases hins
  · rcases isPre_cons hp2 with rfl | ⟨p3, rfl, hp3⟩
    · rcases List.mem_cons.mp hins with heq | hmem
      · cases heq
      · cases hmem
    · rcases isPre_cons hp3 with rfl | ⟨p4, rfl, hp4⟩
      · rcases List.mem_cons.mp hins with heq | hmem
        · cases heq
        · rcases List.mem_cons.mp hmem with heq | hmem2
          · cases heq
          · cases hmem2
      · rw [isPre_nil hp4] at hins ⊢
        rcases List.mem_cons.mp hins with heq | hmem
        · cases heq
        · rcases List.mem_cons.mp hmem with heq | hmem2
          · cases heq
          · rcases List.mem_cons.mp hmem2 with heq | hmem3
            · injection heq with he
              rw [he]
              simp
            · cases hmem3

theorem logBeforeIns_itemTrace (s : RunState) (it : Item) :
    LogBeforeIns (itemTrace s it) := by
  obtain ⟨dec, op, enc, wr, lg, nm⟩ := it
  unfold itemTrace
  cases dec with
  | none => exact logBeforeIns_nil
  | some h =>
    simp only
    cases hc : compare_hash_scan s.store h with
    | none => exact logBeforeIns_nil
    | some h2 =>
      cases op with
      | false => exact logBeforeIns_nil
      | true =>
        cases enc with
        | false => exact logBeforeIns_nil
        | true =>
          cases wr with
          | false => exact logBeforeIns_nil
          | true =>
            cases lg with
            | false => exact logBeforeIns_single_write nm
            | true => exact logBeforeIns_item nm h2

/-- C9: the hash line is appended to the log strictly before the hash is
inserted into the in-memory store.  Whenever an item's trace contains a
store insert, the trace is exactly output-write, then log-append, then
store-insert; and at every point of a run (every initial segment of the
run's durable-action trace) every hash inserted into the store was
already appended to the log — the in-memory store never runs ahead of the
log. -/
theorem log_append_before_store_insert (s : RunState) (items : List Item) :
    (∀ s2 it h, DurAction.insertStore h ∈ itemTrace s2 it →
      itemTrace s2 it = [DurAction.writeOutput it.outName, DurAction.appendLog h,
        DurAction.insertStore h]) ∧
    ∀ p, IsPre p (runTrace s items) →
      ∀ h, DurAction.insertStore h ∈ p → DurAction.appendLog h ∈ p := by
  constructor
  · intro s2 it h hins
    obtain ⟨dec, op, enc, wr, lg, nm⟩ := it
    unfold itemTrace at hins ⊢
    cases dec with
    | none => cases hins
    | some g =>
      simp only at hins ⊢
      cases hc : compare_hash_scan s2.store g with
      | none => rw [hc] at hins; cases hins
      | some g2 =>
        rw [hc] at hins
        cases op with
        | false => cases hins
        | true =>
          cases enc with
          | false => cases hins
          | true =>
            cases wr with
            | false => cases hins
            | true =>
              cases lg with
              | false =>
                rcases List.mem_cons.mp hins with heq | hmem
                · cases heq
                · cases hmem
              | true =>
                have hgh : g2 = h := by
                  rcases List.mem_cons.mp hins with heq | hmem
                  · cases heq
                  · rcases List.mem_cons.mp hmem with heq | hmem2
                    · cases heq
                    · rcases List.mem_cons.mp hmem2 with heq | hmem3
                      · injection heq with he2; exact he2.symm
                      · cases hmem3
                rw [hgh]
                simp
  · have : LogBeforeIns (runTrace s items) := by
      induction items generalizing s with
      | nil => exact logBeforeIns_nil
      | cons it rest ih =>
        unfold runTrace
        cases processItem s it with
        | ok s2 => exact logBeforeIns_append (logBeforeIns_itemTrace s it) (ih s2)
        | error s2 => exact logBeforeIns_itemTrace s it
    exact this

/-- Witness for C9: in the one-item run that admits the hash `[0]`, the
full trace is an initial segment of itself containing the insert, and the
theorem yields the log append in that segment. -/
theorem log_append_before_store_insert_witness :
    IsPre (runTrace ⟨[], [], []⟩ [⟨some ⟨[0]⟩, true, true, true, true, ['n']⟩])
      (runTrace ⟨[], [], []⟩ [⟨some ⟨[0]⟩, true, true, true, true, ['n']⟩]) ∧
    DurAction.insertStore ⟨[0]⟩ ∈
      runTrace ⟨[], [], []⟩ [⟨some ⟨[0]⟩, true, true, true, true, ['n']⟩] ∧
    DurAction.appendLog ⟨[0]⟩ ∈
      runTrace ⟨[], [], []⟩ [⟨some ⟨[0]⟩, true, true, true, true, ['n']⟩] :=
  ⟨⟨[], List.append_nil _⟩, by decide,
    (log_append_before_store_insert ⟨[], [], []⟩
        [⟨some ⟨[0]⟩, true, true, true, true, ['n']⟩]).2
      (runTrace ⟨[], [], []⟩ [⟨some ⟨[0]⟩, true, true, true, true, ['n']⟩])
      ⟨[], List.append_nil _⟩ ⟨[0]⟩ (by decide)⟩

/-- Shared state seen by two concurrent workers: the `HASHES` store plus
each worker's recorded scan decision.  `compare_hash` takes only the
`RwLock` READ lock for its scan (main.rs line 155) and releases it before
`main` takes the WRITE lock for the push (line 108), so the scan and the
insert are two separate atomic actions that other workers can
interleave. -/
structure Conc2State where
  store : List ImageHash
  d1 : Option (Option ImageHash)
  d2 : Option (Option ImageHash)
deriving DecidableEq, Repr

/-- Worker 1 performs its scan (atomic read of the store). -/
def scanStep1 (h1 : ImageHash) (s : Conc2State) : Conc2State :=
  { s with d1 := some (compare_hash_scan s.store h1) }

/-- Worker 2 performs its scan (atomic read of the store). -/
def scanStep2 (h2 : ImageHash) (s : Conc2State) : Conc2State :=
  { s with d2 := some (compare_hash_scan s.store h2) }

/-- Worker 1 performs its insert (atomic write): pushes the hash only if
its earlier scan admitted. -/
def insertStep1 (s : Conc2State) : Conc2State :=
  match s.d1 with
  | some (some h) => { s with store := s.store ++ [h] }
  | _ => s

/-- Worker 2 performs its insert (atomic write). -/
def insertStep2 (s : Conc2State) : Conc2State :=
  match s.d2 with
  | some (some h) => { s with store := s.store ++ [h] }
  | _ => s

/-- C3 is false of the code: the schedule scan1, scan2, insert1, insert2
is a legal interleaving (the read lock is released before the write lock
is taken), worker 2's scan runs between worker 1's scan and insert, and
when both workers process the same image both scans see the store without
the hash, both admit, and the store ends with two copies of a hash at
distance 0 < THRESHOLD — the dedup invariant the atomic protocol is meant
to protect is violated.  The spec itself flags this as a correctness gap
of the source (design note on the scan/insert critical section), so the
code, not the claim, is wrong. -/
theorem scan_insert_not_atomic (h : ImageHash) :
    (insertStep2 (insertStep1 (scanStep2 h (scanStep1 h ⟨[], none, none⟩)))).store
      = [h, h] ∧
    (scanStep2 h (scanStep1 h ⟨[], none, none⟩)).d1 = some (some h) ∧
    (scanStep2 h (scanStep1 h ⟨[], none, none⟩)).d2 = some (some h) ∧
    h.dist h < THRESHOLD := by
  refine ⟨?_, rfl, rfl, ?_⟩
  · rfl
  · rw [ImageHash.dist_self]
    decide

/-- A directory entry seen by `rebuild_hashes` when it reads the output
directory (main.rs lines 199-232): whether the path is a regular file,
its extension (if any), and the outcome of opening and decoding it as an
image (`none` models the decode failing, on which the chained `unwrap`
calls at lines 221-226 panic). -/
structure OutEntry where
  isFile : Bool
  ext : Option (List Char)
  decode : Option ImageHash
deriving DecidableEq, Repr

/-- The filter at main.rs line 220: regular file with extension exactly
`avif` (an `OsStr` compared with `==`, case-sensitively). -/
def isAvifFile (e : OutEntry) : Bool :=
  e.isFile && decide (e.ext = some ['a', 'v', 'i', 'f'])

/-- The hash-collection pass of `rebuild_hashes` (lines 218-232): hash
every avif file, pushing into the shared vector; `none` if some avif file
fails to decode (the worker panics on `unwrap`). -/
def rebuildCollect : List OutEntry → Option (List ImageHash)
  | [] => some []
  | e :: rest =>
    if isAvifFile e then
      match e.decode with
      | none => none
      | some h => (rebuildCollect rest).map (fun hs => h :: hs)
    else rebuildCollect rest

/-- `rebuild_hashes` (main.rs lines 197-248): collect the hashes of all
avif files in the output directory, then truncate the log file and write
one base64 line per collected hash (lines 234-242).  `Except.error`
carries the untouched old log when the collection pass panicked before
the rewrite; `Except.ok` carries the newly written log. -/
def rebuild_hashes (entries : List OutEntry) (oldLog : List (List Char)) :
    Except (List (List Char)) (List (List Char)) :=
  match rebuildCollect entries with
  | none => Except.error oldLog
  | some hs => Except.ok (hs.map ImageHash.to_base64)

theorem rebuildCollect_all_ok (entries : List OutEntry)
    (hok : ∀ e ∈ entries, isAvifFile e = true → e.decode ≠ none) :
    rebuildCollect entries =
      some (entries.filterMap
        (fun e => if isAvifFile e then e.decode else none)) := by
  induction entries with
  | nil => rfl
  | cons e rest ih =>
    have ihr := ih (fun x hx hax => hok x (by simp [hx]) hax)
    unfold rebuildCollect
    rw [List.filterMap_cons]
    by_cases hav : isAvifFile e = true
    · cases hd : e.decode with
      | none => exact absurd hd (hok e (by simp) hav)
      | some h =>
        simp only [hav, if_true, reduceIte, hd, ihr]
        rfl
    · have : isAvifFile e = false := by
        cases hb : isAvifFile e
        · rfl
        · exact absurd hb hav
      simp only [this, reduceIte]
      exact ihr

/-- C6: when every avif file in the output directory decodes, Rebuild
rewrites the log to exactly one base64 hash line per avif output file —
the lines are the hashes of the avif files in order, duplicates among
them are kept, and the number of lines equals the number of avif files.
Files that are not avif output files (subdirectories, the `hashes` log
itself, other extensions) contribute no line. -/
theorem rebuild_one_line_per_output (entries : List OutEntry)
    (oldLog : List (List Char))
    (hok : ∀ e ∈ entries, isAvifFile e = true → e.decode ≠ none) :
    rebuild_hashes entries oldLog =
      Except.ok (((entries.filterMap
        (fun e => if isAvifFile e then e.decode else none)).map
          ImageHash.to_base64)) ∧
    ((entries.filterMap
        (fun e => if isAvifFile e then e.decode else none)).map
          ImageHash.to_base64).length =
      (entries.filter isAvifFile).length := by
  constructor
  · unfold rebuild_hashes
    rw [rebuildCollect_all_ok entries hok]
  · rw [List.length_map, length_filterMap_isSome]
    congr 1
    apply List.filter_congr
    intro e he
    by_cases hav : isAvifFile e = true
    · cases hd : e.decode with
      | none => exact absurd hd (hok e he hav)
      | some h => simp [hav, hd]
    · have : isAvifFile e = false := by
        cases hb : isAvifFile e
        · rfl
        · exact absurd hb hav
      simp [this]

/-- Witness for C6: a directory holding two avif files with the same
image content and the `hashes` log file itself rebuilds to exactly two
identical lines — one per avif file, duplicates not collapsed, no line
for the non-avif file. -/
theorem rebuild_one_line_per_output_witness :
    (∀ e ∈ [OutEntry.mk true (some ['a', 'v', 'i', 'f']) (some ⟨[7]⟩),
            OutEntry.mk true (some ['a', 'v', 'i', 'f']) (some ⟨[7]⟩),
            OutEntry.mk true none (some ⟨[9]⟩)],
      isAvifFile e = true → e.decode ≠ none) ∧
    (rebuild_hashes [OutEntry.mk true (some ['a', 'v', 'i', 'f']) (some ⟨[7]⟩),
            OutEntry.mk true (some ['a', 'v', 'i', 'f']) (some ⟨[7]⟩),
            OutEntry.mk true none (some ⟨[9]⟩)] [] =
        Except.ok [['B', 'w', '=', '='], ['B', 'w', '=', '=']] ∧
      ([['B', 'w', '=', '='], ['B', 'w', '=', '=']] : List (List Char)).length =
        ([OutEntry.mk true (some ['a', 'v', 'i', 'f']) (some ⟨[7]⟩),
          OutEntry.mk true (some ['a', 'v', 'i', 'f']) (some ⟨[7]⟩),
          OutEntry.mk true none (some ⟨[9]⟩)].filter isAvifFile).length) :=
  ⟨by decide,
   rebuild_one_line_per_output
     [OutEntry.mk true (some ['a', 'v', 'i', 'f']) (some ⟨[7]⟩),
      OutEntry.mk true (some ['a', 'v', 'i', 'f']) (some ⟨[7]⟩),
      OutEntry.mk true none (some ⟨[9]⟩)] [] (by decide)⟩

theorem rebuildCollect_none_of_bad (entries : List OutEntry) :
    ∀ e ∈ entries, isAvifFile e = true → e.decode = none →
      rebuildCollect entries = none := by
  induction entries with
  | nil => intro e he; cases he
  | cons x rest ih =>
    intro e he hav hbad
    unfold rebuildCollect
    rcases List.mem_cons.mp he with rfl | hmem
    · simp only [hav, if_true, reduceIte, hbad]
    · by_cases hx : isAvifFile x = true
      · cases hd : x.decode with
        | none => simp only [hx, reduceIte, hd]
        | some h =>
          simp only [hx, reduceIte, hd, ih e hmem hav hbad]
          rfl
      · have : isAvifFile x = false := by
          cases hb : isAvifFile x
          · rfl
          · exact absurd hb hx
        simp only [this, reduceIte]
        exact ih e hmem hav hbad

/-- C10: if the output directory contains at least one file with
extension `avif` that fails to open or decode as an image, the chained
`unwrap` calls in the rebuild pass panic before the log file is
truncated and rewritten, so the existing log is left untouched. -/
theorem rebuild_panics_on_bad_avif (entries : List OutEntry)
    (oldLog : List (List Char)) (e : OutEntry) (he : e ∈ entries)
    (hav : isAvifFile e = true) (hbad : e.decode = none) :
    rebuild_hashes entries oldLog = Except.error oldLog := by
  unfold rebuild_hashes
  rw [rebuildCollect_none_of_bad entries e he hav hbad]

/-- Witness for C10: a directory with one good avif file, one undecodable
avif file, and the log file itself panics and leaves the old log (one
line `AA==`) untouched. -/
theorem rebuild_panics_on_bad_avif_witness :
    OutEntry.mk true (some ['a', 'v', 'i', 'f']) none ∈
      [OutEntry.mk true (some ['a', 'v', 'i', 'f']) (some ⟨[7]⟩),
       OutEntry.mk true (some ['a', 'v', 'i', 'f']) none,
       OutEntry.mk true none (some ⟨[9]⟩)] ∧
    isAvifFile (OutEntry.mk true (some ['a', 'v', 'i', 'f']) none) = true ∧
    OutEntry.decode (OutEntry.mk true (some ['a', 'v', 'i', 'f']) none) = none ∧
    rebuild_hashes
      [OutEntry.mk true (some ['a', 'v', 'i', 'f']) (some ⟨[7]⟩),
       OutEntry.mk true (some ['a', 'v', 'i', 'f']) none,
       OutEntry.mk true none (some ⟨[9]⟩)] [['A', 'A', '=', '=']] =
      Except.error [['A', 'A', '=', '=']] :=
  ⟨by decide, by decide, by decide,
   rebuild_panics_on_bad_avif
     [OutEntry.mk true (some ['a', 'v', 'i', 'f']) (some ⟨[7]⟩),
      OutEntry.mk true (some ['a', 'v', 'i', 'f']) none,
      OutEntry.mk true none (some ⟨[9]⟩)] [['A', 'A', '=', '=']]
     (OutEntry.mk true (some ['a', 'v', 'i', 'f']) none)
     (by decide) (by decide) (by decide)⟩
